import Mathlib

/-!
Verification development for the Son Goku Discord bot repository.

Strings from the JavaScript source are modelled as `List Char`; every
JavaScript string index (UTF-16 code unit position) becomes a list index.
Timestamps and durations are modelled as natural numbers (milliseconds).

Sources embedded here:
* `index.js` — `splitLongResponse`, the `messageCreate` handler
  (reply admission, per-channel lock, response cycle), and the
  `interactionCreate` handler's guided `/draw` cleanup block.
* `src/dbService.js` — `getConversationHistory` and
  `checkAndIncrementImageUsage`.
* `src/geminiService.js` — `decideToReply`.
-/

/-! ### Chunker: `splitLongResponse` from index.js lines 63-94 -/

/-- `MAX_LENGTH` from `splitLongResponse` (Discord's message-size limit). -/
def MAX_LENGTH : Nat := 2000

/-- The whitespace class used by JavaScript `String.prototype.trim` and
`\s`, restricted to the characters that can matter here (ASCII whitespace
plus NBSP). -/
def isWS (c : Char) : Bool :=
  c == ' ' || c == '\t' || c == '\n' || c == '\r' ||
  c == Char.ofNat 11 || c == Char.ofNat 12 || c == Char.ofNat 160

/-- Leading-whitespace removal, as in JS `trimStart`. -/
def trimLeft (l : List Char) : List Char := l.dropWhile isWS

/-- Trailing-whitespace removal, as in JS `trimEnd`. -/
def trimRight (l : List Char) : List Char := (l.reverse.dropWhile isWS).reverse

/-- JS `String.prototype.trim`: strip whitespace from both ends. -/
def trim (l : List Char) : List Char := trimLeft (trimRight l)

/-- Index of the last occurrence of `c` in `l`, if any. -/
def lastIndexOfAux (l : List Char) (c : Char) : Option Nat :=
  match l with
  | [] => none
  | a :: t =>
    match lastIndexOfAux t c with
    | some i => some (i + 1)
    | none => if a == c then some 0 else none

/-- JS `String.prototype.lastIndexOf`: the index of the last occurrence,
or `-1` when the character does not occur. -/
def jsLastIndexOf (l : List Char) (c : Char) : Int :=
  match lastIndexOfAux l c with
  | none => -1
  | some i => (i : Int)

/-- JS `lastIndexOf(c, fromIndex)`: last occurrence at position
`≤ fromIndex`. -/
def jsLastIndexOfFrom (l : List Char) (c : Char) (fromIdx : Nat) : Int :=
  jsLastIndexOf (l.take (fromIdx + 1)) c

/-- The split position chosen by one iteration of the `splitLongResponse`
loop (index.js lines 72-88): when more than `MAX_LENGTH` characters
remain, prefer the last newline within 100 characters of the boundary,
then the last sentence terminator within 100 characters, else a hard cut
at `MAX_LENGTH`; when at most `MAX_LENGTH` remain, take everything. -/
def computeSplitIndex (currentText : List Char) : Nat :=
  if currentText.length > MAX_LENGTH then
    let chunk := currentText.take MAX_LENGTH
    let lastNewline := jsLastIndexOf chunk '\n'
    let lastSentenceEnd :=
      max (jsLastIndexOf chunk '.') (max (jsLastIndexOf chunk '!') (jsLastIndexOf chunk '?'))
    if lastNewline ≠ -1 ∧ (MAX_LENGTH : Int) - lastNewline < 100 then
      (lastNewline + 1).toNat
    else if lastSentenceEnd ≠ -1 ∧ (MAX_LENGTH : Int) - lastSentenceEnd < 100 then
      (lastSentenceEnd + 1).toNat
    else
      MAX_LENGTH
  else currentText.length

/-- The `while (currentText.length > 0)` loop of `splitLongResponse`:
push the trimmed chunk, continue with the trimmed remainder. -/
def splitLoop (currentText : List Char) : List (List Char) :=
  if h : currentText.length = 0 then []
  else
    let splitIndex := computeSplitIndex currentText
    trim (currentText.take splitIndex) :: splitLoop (trim (currentText.drop splitIndex))
termination_by currentText.length
decreasing_by
  have htrim : ∀ l : List Char, (trim l).length ≤ l.length := by
    intro l
    simp only [trim, trimLeft, trimRight]
    have h1 : (List.dropWhile isWS ((l.reverse.dropWhile isWS).reverse)).length ≤
        ((l.reverse.dropWhile isWS).reverse).length := (List.dropWhile_sublist _).length_le
    have h2 : (l.reverse.dropWhile isWS).length ≤ l.reverse.length :=
      (List.dropWhile_sublist _).length_le
    simp only [List.length_reverse] at h1 h2
    omega
  have hge : ∀ (l : List Char) (c : Char), (-1 : Int) ≤ jsLastIndexOf l c := by
    intro l c
    unfold jsLastIndexOf
    cases lastIndexOfAux l c
    · exact le_refl _
    · rename_i i
      exact le_trans (by omega : (-1 : Int) ≤ 0) (Int.ofNat_nonneg i)
  have hk : 1 ≤ computeSplitIndex currentText := by
    simp only [computeSplitIndex]
    split
    · split
      · rename_i hc
        have h1 := hge (currentText.take MAX_LENGTH) '\n'
        have h2 := hc.1
        omega
      · split
        · rename_i hc2
          have h1 : (-1 : Int) ≤
              max (jsLastIndexOf (currentText.take MAX_LENGTH) '.')
                (max (jsLastIndexOf (currentText.take MAX_LENGTH) '!')
                  (jsLastIndexOf (currentText.take MAX_LENGTH) '?')) :=
            le_trans (hge _ '.') (le_max_left _ _)
          have h2 := hc2.1
          omega
        · simp [MAX_LENGTH]
    · omega
  have hd : (currentText.drop (computeSplitIndex currentText)).length =
      currentText.length - computeSplitIndex currentText := List.length_drop _ _
  have := htrim (currentText.drop (computeSplitIndex currentText))
  omega

/-- `splitLongResponse` from index.js: texts of at most `MAX_LENGTH`
characters are returned whole (without filtering); longer texts run the
splitting loop and empty chunks are filtered out at the end. -/
def splitLongResponse (text : List Char) : List (List Char) :=
  if text.length ≤ MAX_LENGTH then [text]
  else (splitLoop text).filter (fun m => m.length > 0)

/-- `reconstructs t cs` says that the original text `t` is exactly the
chunks `cs` in order, interleaved with (possibly empty) whitespace-only
padding — i.e. concatenating the chunks reproduces `t` up to whitespace
trimmed at chunk boundaries. -/
def reconstructs : List Char → List (List Char) → Prop
  | t, [] => t.all isWS = true
  | t, c :: cs => ∃ w t', w.all isWS = true ∧ t = w ++ c ++ t' ∧ reconstructs t' cs

/-! ### Memory store and context assembler: `src/dbService.js` -/

/-- The `role` enum of the Conversation schema. -/
inductive Role where
  | user
  | model
deriving DecidableEq

/-- A record of the `Conversation` collection (dbService.js schema),
restricted to the fields the retrieval algorithm reads. -/
structure Conversation where
  serverId : String
  userId : String
  content : List Char
  role : Role
  timestamp : Nat
deriving DecidableEq

/-- `MAX_RECENT_MESSAGES` from dbService.js (current revision). -/
def MAX_RECENT_MESSAGES : Nat := 60

/-- `MAX_CONTEXT_MESSAGES` from dbService.js (current revision). -/
def MAX_CONTEXT_MESSAGES : Nat := 100

/-- Sorting relation for `.sort(\x7b timestamp: -1 \x7d)`: newest first. -/
def tsDesc (a b : Conversation) : Prop := b.timestamp ≤ a.timestamp

instance : DecidableRel tsDesc := fun _ _ => Nat.decLe _ _

instance : IsTotal Conversation tsDesc :=
  ⟨fun a b => (Nat.le_total b.timestamp a.timestamp).imp id id⟩

instance : IsTrans Conversation tsDesc :=
  ⟨fun _ _ _ h1 h2 => Nat.le_trans h2 h1⟩

/-- The Mongo query filter of `getConversationHistory`:
`$or` of (userId ∧ serverId matches) and (userId ∧ serverId differs). -/
def historyFilter (serverId userId : String) (r : Conversation) : Bool :=
  (r.userId == userId && r.serverId == serverId) ||
  (r.userId == userId && !(r.serverId == serverId))

/-- `Conversation.find(...).sort(\x7b timestamp: -1 \x7d).limit(MAX_CONTEXT_MESSAGES)`:
matching records, newest first, at most 100. The store is a plain list;
the sort is modelled by insertion sort on the descending relation. -/
def fetchRecent (store : List Conversation) (serverId userId : String) : List Conversation :=
  (List.insertionSort tsDesc (store.filter (historyFilter serverId userId))).take MAX_CONTEXT_MESSAGES

/-- Splits a character list at whitespace, as JS `split(/\s+/)` does
(runs of whitespace may additionally produce empty words, which the
keyword filter below discards anyway). -/
def splitWs (l : List Char) : List (List Char) :=
  l.foldr
    (fun c acc =>
      if isWS c then [] :: acc
      else
        match acc with
        | [] => [[c]]
        | w :: ws => (c :: w) :: ws)
    [[]]

/-- `currentPrompt.split(/\s+/).filter(w => w.length > 3)` from
`getConversationHistory`. -/
def keywordsOf (prompt : List Char) : List (List Char) :=
  (splitWs prompt).filter (fun w => w.length > 3)

/-- Does `kw` occur in `content` starting at position 0? -/
def startsWith : List Char → List Char → Bool
  | _, [] => true
  | [], _ :: _ => false
  | c :: cs, k :: ks => c == k && startsWith cs ks

/-- Does `kw` occur anywhere in `content`? -/
def containsSeq : List Char → List Char → Bool
  | [], kw => kw.isEmpty
  | c :: cs, kw => startsWith (c :: cs) kw || containsSeq cs kw

/-- The case-insensitive regex test
`new RegExp(keywords, 'i').test(msg.content)` for a single alternation
branch, assuming keywords contain no regex metacharacters: `kw` occurs in
`content` ignoring ASCII case. -/
def icontains (content kw : List Char) : Bool :=
  containsSeq (content.map Char.toLower) (kw.map Char.toLower)

/-- The record-selection part of `getConversationHistory`
(dbService.js lines 285-328): a recency window of the newest
`MAX_RECENT_MESSAGES` records in chronological order, with up to
`MAX_CONTEXT_MESSAGES - MAX_RECENT_MESSAGES` keyword-relevant older
records prepended, truncated to the first `MAX_CONTEXT_MESSAGES`. -/
def getHistoryRecords (store : List Conversation) (serverId userId : String)
    (currentPrompt : List Char) : List Conversation :=
  let recentMessages := fetchRecent store serverId userId
  let contextMessages := (recentMessages.take MAX_RECENT_MESSAGES).reverse
  let memoryPool := recentMessages.drop MAX_RECENT_MESSAGES
  let withMemories :=
    if memoryPool.length > 0 then
      let keywords := keywordsOf currentPrompt
      if keywords.length > 0 then
        let relevantMemories :=
          ((memoryPool.filter
              (fun msg => keywords.any (fun kw => icontains msg.content kw))).take
            (MAX_CONTEXT_MESSAGES - MAX_RECENT_MESSAGES)).reverse
        relevantMemories ++ contextMessages
      else contextMessages
    else contextMessages
  withMemories.take MAX_CONTEXT_MESSAGES

/-- One entry of the assembled history, as handed to the Gemini API. -/
structure HistoryEntry where
  role : Role
  text : List Char
deriving DecidableEq

/-- `getConversationHistory` from dbService.js: the selected records
mapped to role/text pairs (the source maps role `user` to `user` and
everything else to `model`, the identity on this two-valued enum). -/
def getConversationHistory (store : List Conversation) (serverId userId : String)
    (currentPrompt : List Char) : List HistoryEntry :=
  (getHistoryRecords store serverId userId currentPrompt).map
    (fun msg => ⟨msg.role, msg.content⟩)

/-! ### Usage ledger: `checkAndIncrementImageUsage` from dbService.js -/

/-- A document of the `ImageUsage` collection. -/
structure ImageUsage where
  count : Nat
  lastReset : Nat
deriving DecidableEq

/-- The result object of `checkAndIncrementImageUsage`. -/
structure UsageResult where
  allowed : Bool
  count : Nat
deriving DecidableEq

/-- `resetInterval` from `checkAndIncrementImageUsage`: 24 hours in
milliseconds. -/
def RESET_INTERVAL : Nat := 24 * 60 * 60 * 1000

/-- `maxUsage` from `checkAndIncrementImageUsage`. -/
def MAX_USAGE : Nat := 5

/-- `checkAndIncrementImageUsage` (dbService.js lines 411-443) as a pure
state transformer on the identity's usage document. `now - lastReset` is
JS date subtraction; with `Nat` truncated subtraction a clock that runs
backwards still lands in the in-window branch, matching the JS `< resetInterval`
comparison for any `now ≥ 0`. -/
def checkAndIncrementImageUsage (usage : Option ImageUsage) (now : Nat) :
    UsageResult × Option ImageUsage :=
  match usage with
  | some u =>
    if now - u.lastReset < RESET_INTERVAL then
      if u.count ≥ MAX_USAGE then (⟨false, u.count⟩, some u)
      else (⟨true, u.count + 1⟩, some ⟨u.count + 1, u.lastReset⟩)
    else (⟨true, 1⟩, some ⟨1, now⟩)
  | none => (⟨true, 1⟩, some ⟨1, now⟩)

/-- Iterates `checkAndIncrementImageUsage` over a sequence of call
times, collecting the results and the final stored document. -/
def runUsage (st : Option ImageUsage) : List Nat → List UsageResult × Option ImageUsage
  | [] => ([], st)
  | t :: ts =>
    let step := checkAndIncrementImageUsage st t
    let rest := runUsage step.2 ts
    (step.1 :: rest.1, rest.2)

/-! ### Relevance classifier wrapper: `decideToReply` from geminiService.js -/

/-- `decideToReply` (geminiService.js lines 92-116), abstracted over the
backend call: the argument is the outcome of
`geminiClient.models.generateContent` — an exception, or a response whose
`.text` may be absent. The function never propagates the exception; it
lower-cases and trims the output and compares it with the literal
`'yes'`. -/
def decideToReply (result : Except Unit (Option (List Char))) : Bool :=
  match result with
  | .error _ => false
  | .ok txt =>
    match txt with
    | none => false
    | some s => trim (s.map Char.toLower) == ['y', 'e', 's']

/-! ### The messageCreate handler: index.js lines 439-593 -/

/-- `MAX_IGNORE_COUNT` from index.js line 25. -/
def MAX_IGNORE_COUNT : Nat := 1

/-- The observable steps the `messageCreate` handler performs, in order.
Pure reads (fetching the referenced message, `getBotActiveStatus`,
`getConversationHistory`) are omitted; every write, backend call and
outbound send is an event. -/
inductive Ev where
  | classify
  | resetIgn
  | incIgn
  | busyNotice (pinging : Bool)
  | lockSet
  | upload
  | callGen
  | sendChunk
  | saveMem
  | errNotice (pinging : Bool)
  | lockClear
  | cleanupFile
deriving DecidableEq

/-- Terminal outcome of one `messageCreate` invocation. -/
inductive Outcome where
  | ignored
  | busy
  | replied
deriving DecidableEq

/-- The inputs of one `messageCreate` invocation: message flags, the
durable flags/counters read from the store, the in-memory lock and draw
state, the classifier verdict, the generated text, the 5%-split random
draw, and the fault point of the response cycle (`none`: every awaited
call succeeds; `some k`: the `k`-th step of the try block throws). -/
structure MsgCtx where
  authorIsBot : Bool
  inScope : Bool
  isTagged : Bool
  isReplyToBot : Bool
  rawPrompt : List Char
  attachments : Nat
  hasActiveDraw : Bool
  isBotActive : Bool
  isContinuous : Bool
  ignoreCount : Nat
  classifierYes : Bool
  lockHeld : Bool
  responseText : List Char
  splitChance : Bool
  fault : Option Nat
deriving DecidableEq

/-- `isMandatoryPingReply` from index.js line 452: the bot is the first
mentioned user, or the message replies to a bot message. -/
def isMandatoryPingReply (ctx : MsgCtx) : Bool := ctx.isTagged || ctx.isReplyToBot

/-- The reply-admission decision of index.js lines 462-477: mandatory
replies are unconditional; otherwise continuous mode, then the
ignore-count escalation, then the classifier verdict. -/
def admitDecision (ctx : MsgCtx) : Bool :=
  if isMandatoryPingReply ctx then true
  else if ctx.isContinuous then true
  else if ctx.ignoreCount ≥ MAX_IGNORE_COUNT then true
  else ctx.classifierYes

/-- Whether the admission path reaches the `decideToReply` call. -/
def classifierConsulted (ctx : MsgCtx) : Bool :=
  !isMandatoryPingReply ctx && !ctx.isContinuous &&
    decide (ctx.ignoreCount < MAX_IGNORE_COUNT)

/-- Events emitted while computing the admission decision: the
classifier call, which itself resets the ignore counter on a yes verdict
(geminiService.js line 107). -/
def decisionTrace (ctx : MsgCtx) : List Ev :=
  if classifierConsulted ctx then
    .classify :: (if ctx.classifierYes then [.resetIgn] else [])
  else []

/-- The delivered message list (index.js lines 536-548): the chunked
response, with a 5%-probability midpoint split applied to single-chunk
responses longer than 50 characters. -/
def responseMessages (ctx : MsgCtx) : List (List Char) :=
  let base := splitLongResponse ctx.responseText
  if base.length == 1 && ctx.splitChance && decide (ctx.responseText.length > 50) then
    let midIndex := ctx.responseText.length / 2
    let lastDot := jsLastIndexOfFrom ctx.responseText '.' midIndex
    let splitPoint := if lastDot ≠ -1 then (lastDot + 1).toNat else midIndex
    [trim (ctx.responseText.take splitPoint), trim (ctx.responseText.drop splitPoint)].filter
      (fun m => m.length > 0)
  else base

/-- The steps of a fault-free response cycle (the try block of index.js
lines 502-574): upload each attachment, one generation call, the reply
send plus one send per further chunk, then the two memory appends. -/
def cycleEvents (ctx : MsgCtx) : List Ev :=
  List.replicate ctx.attachments .upload ++ [.callGen] ++
    ([.sendChunk] ++ List.replicate ((responseMessages ctx).length - 1) .sendChunk) ++
    [.saveMem, .saveMem]

/-- Attachments whose upload completed before the fault point (these are
the entries of `filesToCleanup`). -/
def uploadsDone (ctx : MsgCtx) : Nat :=
  match ctx.fault with
  | none => ctx.attachments
  | some k => min k ctx.attachments

/-- The try/catch part of the response cycle: either all steps, or the
steps before the fault followed by the catch block's error notice (sent
non-pinging, and only for direct addresses — index.js lines 576-580). -/
def tryTrace (ctx : MsgCtx) : List Ev :=
  match ctx.fault with
  | none => cycleEvents ctx
  | some k =>
    (cycleEvents ctx).take k ++
      (if isMandatoryPingReply ctx then [.errNotice false] else [])

/-- The whole `messageCreate` handler as outcome plus event trace,
following index.js lines 439-593 step by step: bot/scope guard, in-flight
`/draw` guard, activation check, admission decision (with its ignore
bookkeeping), the busy path under a held lock, and otherwise the locked
response cycle whose `finally` clears the lock and deletes the uploaded
files. -/
def handleMessage (ctx : MsgCtx) : Outcome × List Ev :=
  if ctx.authorIsBot || !ctx.inScope then (.ignored, [])
  else if ctx.hasActiveDraw then (.ignored, [])
  else if !ctx.isBotActive then (.ignored, [])
  else if !admitDecision ctx then
    (.ignored, decisionTrace ctx ++ (if !isMandatoryPingReply ctx then [.incIgn] else []))
  else if ctx.lockHeld then
    (.busy, decisionTrace ctx ++ [.resetIgn] ++
      (if isMandatoryPingReply ctx then [.busyNotice false] else []))
  else
    (.replied, decisionTrace ctx ++ [.resetIgn, .lockSet] ++ tryTrace ctx ++
      [.lockClear] ++ List.replicate (uploadsDone ctx) .cleanupFile)

/-- Events that belong to the response cycle proper (everything the try
and catch blocks do). -/
def isCycleEv : Ev → Bool
  | .upload => true
  | .callGen => true
  | .sendChunk => true
  | .saveMem => true
  | .errNotice _ => true
  | _ => false

/-- Effect of one event on the channel lock. -/
def lockStep (b : Bool) (e : Ev) : Bool :=
  match e with
  | .lockSet => true
  | .lockClear => false
  | _ => b

/-- The lock state after a trace, starting from `b`. -/
def lockAfter (b : Bool) : List Ev → Bool
  | [] => b
  | e :: tr => lockAfter (lockStep b e) tr

/-- Checks that every response-cycle event in the trace happens while
the channel lock is held. -/
def coveredByLock (b : Bool) : List Ev → Bool
  | [] => true
  | e :: tr => (!isCycleEv e || b) && coveredByLock (lockStep b e) tr

/-- Count of occurrences of one event in a trace. -/
def countEv (e : Ev) (tr : List Ev) : Nat :=
  (tr.filter (fun x => decide (x = e))).length

/-- Count of busy notices (of either ping mode) in a trace. -/
def countBusyNotices (tr : List Ev) : Nat :=
  (tr.filter (fun e => match e with | .busyNotice _ => true | _ => false)).length

/-! ### The guided /draw cleanup: index.js lines 403-413 -/

/-- One entry of the `activeDrawInteractions` collection: the flow step
and, once the image has been uploaded to the backend, the uploaded file's
name. -/
structure DrawState where
  step : List Char
  file : Option (List Char)
deriving DecidableEq

/-- How a guided image-edit flow can end (index.js lines 389-400). -/
inductive DrawOutcome where
  | success
  | timeoutImage
  | timeoutPrompt
  | notImage
  | otherFailure
deriving DecidableEq

/-- `activeDrawInteractions.delete(user.id)` on a map modelled as a
function from user ids to optional entries. -/
def eraseDraw (m : String → Option DrawState) (uid : String) : String → Option DrawState :=
  fun k => if k = uid then none else m k

/-- The `finally` block of the `/draw` branch (index.js lines 403-413),
literally in source order: first delete the map entry, then read the
entry back, and only if the read yields a record with a file would the
backend file be deleted. Returns the updated map and whether the
file-deletion call is reached. -/
def drawFinally (m : String → Option DrawState) (uid : String) :
    (String → Option DrawState) × Bool :=
  let mAfter := eraseDraw m uid
  match mAfter uid with
  | some interactionData => (mAfter, interactionData.file.isSome)
  | none => (mAfter, false)

/-- The cleanup runs in a `finally`, hence identically for every flow
outcome. -/
def drawFlowCleanup (_outcome : DrawOutcome) (m : String → Option DrawState)
    (uid : String) : (String → Option DrawState) × Bool :=
  drawFinally m uid

/-- The `/draw` map state for a flow that reached the edit step: the
user's entry holds the uploaded backend file. -/
def exDrawMap : String → Option DrawState :=
  fun k => if k = "u1" then some ⟨String.toList "prompt", some (String.toList "files/abc123")⟩ else none

/-- Concrete handler input: a direct address (bot mentioned first) whose
prompt is empty after stripping the mention, with no attachment, in an
active, unlocked scope, with a fault-free cycle. -/
def ctxEmptyDirect : MsgCtx :=
  { authorIsBot := false
    inScope := true
    isTagged := true
    isReplyToBot := false
    rawPrompt := []
    attachments := 0
    hasActiveDraw := false
    isBotActive := true
    isContinuous := false
    ignoreCount := 0
    classifierYes := false
    lockHeld := false
    responseText := String.toList "Hey pal!"
    splitChance := false
    fault := none }

/-- The store used to exhibit a context of more than 80 entries: 81
records of one user, all matching the prompt keyword, timestamps already
newest-first. -/
def cexStore : List Conversation :=
  (List.range 81).map (fun i => ⟨"s1", "u1", String.toList "abcd", Role.user, 80 - i⟩)

/-! ### Lemmas about trimming and split indices -/

theorem trim_length_le (l : List Char) : (trim l).length ≤ l.length := by
  simp only [trim, trimLeft, trimRight]
  have h1 : (List.dropWhile isWS ((l.reverse.dropWhile isWS).reverse)).length ≤
      ((l.reverse.dropWhile isWS).reverse).length := (List.dropWhile_sublist _).length_le
  have h2 : (l.reverse.dropWhile isWS).length ≤ l.reverse.length :=
    (List.dropWhile_sublist _).length_le
  simp only [List.length_reverse] at h1 h2
  omega

theorem trimLeft_decomp (l : List Char) :
    ∃ w, w.all isWS = true ∧ l = w ++ trimLeft l := by
  refine ⟨l.takeWhile isWS, ?_, (List.takeWhile_append_dropWhile isWS l).symm⟩
  rw [List.all_eq_true]
  intro e he
  exact List.mem_takeWhile_imp he

theorem trimRight_decomp (l : List Char) :
    ∃ w, w.all isWS = true ∧ l = trimRight l ++ w := by
  refine ⟨(l.reverse.takeWhile isWS).reverse, ?_, ?_⟩
  · rw [List.all_eq_true]
    intro e he
    rw [List.mem_reverse] at he
    exact List.mem_takeWhile_imp he
  · calc l = l.reverse.reverse := (List.reverse_reverse l).symm
    _ = (l.reverse.takeWhile isWS ++ l.reverse.dropWhile isWS).reverse := by
        rw [List.takeWhile_append_dropWhile]
    _ = (l.reverse.dropWhile isWS).reverse ++ (l.reverse.takeWhile isWS).reverse := by
        rw [List.reverse_append]
    _ = trimRight l ++ (l.reverse.takeWhile isWS).reverse := rfl

theorem trim_decomp (l : List Char) :
    ∃ w1 w2, w1.all isWS = true ∧ w2.all isWS = true ∧ l = w1 ++ trim l ++ w2 := by
  obtain ⟨w2, hw2, h2⟩ := trimRight_decomp l
  obtain ⟨w1, hw1, h1⟩ := trimLeft_decomp (trimRight l)
  refine ⟨w1, w2, hw1, hw2, ?_⟩
  rw [trim]
  conv_lhs => rw [h2, h1]

theorem lastIndexOfAux_lt (l : List Char) (c : Char) :
    ∀ i, lastIndexOfAux l c = some i → i < l.length := by
  induction l with
  | nil => intro i h; simp [lastIndexOfAux] at h
  | cons a t ih =>
    intro i h
    simp only [lastIndexOfAux] at h
    cases ht : lastIndexOfAux t c with
    | some j =>
      rw [ht] at h
      have hj := ih j ht
      simp only [Option.some.injEq] at h
      simp only [List.length_cons]
      omega
    | none =>
      rw [ht] at h
      by_cases hac : (a == c) = true
      · rw [if_pos hac] at h
        simp only [Option.some.injEq] at h
        simp only [List.length_cons]
        omega
      · rw [if_neg hac] at h
        exact absurd h (by simp)

theorem jsLastIndexOf_ge (l : List Char) (c : Char) : (-1 : Int) ≤ jsLastIndexOf l c := by
  unfold jsLastIndexOf
  cases lastIndexOfAux l c
  · exact le_refl _
  · rename_i i
    exact le_trans (by omega : (-1 : Int) ≤ 0) (Int.ofNat_nonneg i)

theorem jsLastIndexOf_lt (l : List Char) (c : Char) :
    jsLastIndexOf l c < (l.length : Int) := by
  cases h : lastIndexOfAux l c
  · simp only [jsLastIndexOf, h]
    have : (0 : Int) ≤ (l.length : Int) := Int.ofNat_nonneg _
    omega
  · rename_i i
    simp only [jsLastIndexOf, h]
    have := lastIndexOfAux_lt l c i h
    omega

theorem computeSplitIndex_bounds (t : List Char) (h : t.length > MAX_LENGTH) :
    1900 < computeSplitIndex t ∧ computeSplitIndex t ≤ MAX_LENGTH := by
  have hMAX : MAX_LENGTH = 2000 := rfl
  have hchunklen : ((t.take MAX_LENGTH).length : Int) = 2000 := by
    simp only [List.length_take]
    omega
  have hnl_ge := jsLastIndexOf_ge (t.take MAX_LENGTH) '\n'
  have hnl_lt := jsLastIndexOf_lt (t.take MAX_LENGTH) '\n'
  have hd_lt := jsLastIndexOf_lt (t.take MAX_LENGTH) '.'
  have hb_lt := jsLastIndexOf_lt (t.take MAX_LENGTH) '!'
  have hq_lt := jsLastIndexOf_lt (t.take MAX_LENGTH) '?'
  have hd_ge := jsLastIndexOf_ge (t.take MAX_LENGTH) '.'
  rw [hchunklen] at hnl_lt hd_lt hb_lt hq_lt
  simp only [computeSplitIndex, h, if_true]
  split
  · rename_i hc
    omega
  · split
    · rename_i hc2
      have hmax_lt :
          max (jsLastIndexOf (t.take MAX_LENGTH) '.')
            (max (jsLastIndexOf (t.take MAX_LENGTH) '!')
              (jsLastIndexOf (t.take MAX_LENGTH) '?')) < (2000 : Int) :=
        max_lt hd_lt (max_lt hb_lt hq_lt)
      have hmax_ge : (-1 : Int) ≤
          max (jsLastIndexOf (t.take MAX_LENGTH) '.')
            (max (jsLastIndexOf (t.take MAX_LENGTH) '!')
              (jsLastIndexOf (t.take MAX_LENGTH) '?')) :=
        le_trans hd_ge (le_max_left _ _)
      omega
    · omega

theorem computeSplitIndex_le (t : List Char) : computeSplitIndex t ≤ MAX_LENGTH := by
  by_cases h : t.length > MAX_LENGTH
  · exact (computeSplitIndex_bounds t h).2
  · unfold computeSplitIndex
    rw [if_neg h]
    omega

theorem computeSplitIndex_pos (t : List Char) (h : t.length ≠ 0) :
    1 ≤ computeSplitIndex t := by
  by_cases hlen : t.length > MAX_LENGTH
  · have := (computeSplitIndex_bounds t hlen).1
    omega
  · unfold computeSplitIndex
    rw [if_neg hlen]
    omega

theorem splitRemainder_lt (t : List Char) (h : t.length ≠ 0) :
    (trim (t.drop (computeSplitIndex t))).length < t.length := by
  have h1 := trim_length_le (t.drop (computeSplitIndex t))
  have h2 : (t.drop (computeSplitIndex t)).length = t.length - computeSplitIndex t :=
    List.length_drop _ _
  have h3 := computeSplitIndex_pos t h
  omega

theorem splitLoop_chunk_le (t : List Char) : ∀ c ∈ splitLoop t, c.length ≤ MAX_LENGTH := by
  induction t using splitLoop.induct with
  | case1 t h =>
    rw [splitLoop.eq_def]
    simp [h]
  | case2 t h k ih =>
    rw [splitLoop.eq_def]
    simp only [h, dite_false]
    intro c hc
    rcases List.mem_cons.mp hc with hc1 | hc2
    · have h1 := trim_length_le (t.take (computeSplitIndex t))
      have h2 : (t.take (computeSplitIndex t)).length ≤ computeSplitIndex t :=
        List.length_take_le _ _
      have h3 := computeSplitIndex_le t
      subst hc1
      omega
    · exact ih c hc2

theorem reconstructs_padr (v : List Char) (hv : v.all isWS = true) :
    ∀ (cs : List (List Char)) (t : List Char), reconstructs t cs → reconstructs (t ++ v) cs := by
  intro cs
  induction cs with
  | nil =>
    intro t ht
    simp only [reconstructs, List.all_append] at *
    simp [ht, hv]
  | cons c cs ih =>
    intro t ht
    obtain ⟨w, t', hw, heq, hrec⟩ := ht
    exact ⟨w, t' ++ v, hw, by rw [heq]; simp [List.append_assoc], ih t' hrec⟩

theorem reconstructs_padl (w : List Char) (hw : w.all isWS = true) (t : List Char)
    (cs : List (List Char)) (h : reconstructs t cs) : reconstructs (w ++ t) cs := by
  cases cs with
  | nil =>
    simp only [reconstructs, List.all_append] at *
    simp [hw, h]
  | cons c cs =>
    obtain ⟨w0, t', hw0, heq, hrec⟩ := h
    refine ⟨w ++ w0, t', ?_, ?_, hrec⟩
    · simp [List.all_append, hw, hw0]
    · rw [heq]
      simp [List.append_assoc]

theorem reconstructs_filter (cs : List (List Char)) :
    ∀ t, reconstructs t cs → reconstructs t (cs.filter (fun m => m.length > 0)) := by
  induction cs with
  | nil => intro t h; simpa using h
  | cons c cs ih =>
    intro t h
    obtain ⟨w, t', hw, heq, hrec⟩ := h
    by_cases hc : c.length > 0
    · rw [List.filter_cons_of_pos (by simpa using hc)]
      exact ⟨w, t', hw, heq, ih t' hrec⟩
    · rw [List.filter_cons_of_neg (by simpa using hc)]
      have hc0 : c = [] := List.length_eq_zero.mp (by omega)
      subst hc0
      simp only [List.append_nil] at heq
      rw [heq]
      exact reconstructs_padl w hw t' _ (ih t' hrec)

theorem reconstructs_splitLoop (t : List Char) : reconstructs t (splitLoop t) := by
  induction t using splitLoop.induct with
  | case1 t h =>
    rw [splitLoop.eq_def]
    simp only [h, dite_true]
    simp [reconstructs, List.length_eq_zero.mp h]
  | case2 t h k ih =>
    rw [splitLoop.eq_def]
    simp only [h, dite_false]
    obtain ⟨a, b, ha, hb, habs⟩ := trim_decomp (t.take (computeSplitIndex t))
    obtain ⟨u, v, hu, hv, huvs⟩ := trim_decomp (t.drop (computeSplitIndex t))
    refine ⟨a, b ++ t.drop (computeSplitIndex t), ha, ?_, ?_⟩
    · conv_lhs => rw [← List.take_append_drop (computeSplitIndex t) t]
      conv_lhs => rw [habs]
      simp [List.append_assoc]
    · have h1 := reconstructs_padr v hv _ _ ih
      have h2 := reconstructs_padl u hu _ _ h1
      have h3 : reconstructs (t.drop (computeSplitIndex t))
          (splitLoop (trim (t.drop (computeSplitIndex t)))) := by
        nth_rewrite 1 [huvs]
        simp only [List.append_assoc]
        simpa [List.append_assoc] using h2
      exact reconstructs_padl b hb _ _ h3

/-- C4 (amended): every chunk produced by `splitLongResponse` has at most
`MAX_LENGTH` characters, the original text is the chunks in order
separated only by whitespace trimmed at chunk boundaries, and a chunk can
be empty only when the whole input is empty (an input of length at most
`MAX_LENGTH` is returned as a single unfiltered chunk). -/
theorem splitLongResponse_spec (text : List Char) :
    (∀ c ∈ splitLongResponse text, c.length ≤ MAX_LENGTH) ∧
    reconstructs text (splitLongResponse text) ∧
    (∀ c ∈ splitLongResponse text, c = [] → text = []) := by
  by_cases h : text.length ≤ MAX_LENGTH
  · simp only [splitLongResponse, if_pos h]
    refine ⟨?_, ?_, ?_⟩
    · intro c hc
      rw [List.mem_singleton] at hc
      subst hc
      exact h
    · exact ⟨[], [], rfl, by simp, rfl⟩
    · intro c hc hceq
      rw [List.mem_singleton] at hc
      subst hc
      exact hceq
  · simp only [splitLongResponse, if_neg h]
    refine ⟨?_, ?_, ?_⟩
    · intro c hc
      exact splitLoop_chunk_le text c (List.mem_of_mem_filter hc)
    · exact reconstructs_filter _ _ (reconstructs_splitLoop text)
    · intro c hc hceq
      subst hceq
      have := (List.mem_filter.mp hc).2
      simp at this

/-- C4 (counterexample to the claim as stated): on the empty input,
`splitLongResponse` returns a single empty chunk, so "no chunk is empty"
fails. -/
theorem splitLongResponse_empty_chunk :
    splitLongResponse ([] : List Char) = [[]] ∧
    ¬ (∀ c ∈ splitLongResponse ([] : List Char), c ≠ []) := by
  constructor
  · rfl
  · decide

/-- Witness for `splitLongResponse_spec` at a concrete input. -/
theorem splitLongResponse_spec_witness :
    (String.toList "Go!").length ≤ MAX_LENGTH ∧
    reconstructs (String.toList "Go!") (splitLongResponse (String.toList "Go!")) :=
  ⟨(splitLongResponse_spec (String.toList "Go!")).1 (String.toList "Go!") (by decide),
   (splitLongResponse_spec (String.toList "Go!")).2.1⟩

/-- C10: `splitLongResponse` makes strict progress — whenever the
remaining text exceeds `MAX_LENGTH`, the chosen split index is strictly
positive (indeed above 1900, with the hard cut at `MAX_LENGTH` as upper
bound), so the trimmed remainder is strictly shorter; the loop therefore
terminates (in this development `splitLoop` is total by exactly this
measure). -/
theorem split_index_progress (t : List Char) (h : t.length > MAX_LENGTH) :
    0 < computeSplitIndex t ∧ 1900 < computeSplitIndex t ∧
    computeSplitIndex t ≤ MAX_LENGTH ∧
    (trim (t.drop (computeSplitIndex t))).length < t.length := by
  have hb := computeSplitIndex_bounds t h
  have hMAX : MAX_LENGTH = 2000 := rfl
  have hr := splitRemainder_lt t (by omega)
  exact ⟨by omega, hb.1, hb.2, hr⟩

/-- Witness for `split_index_progress` at a concrete input of 2001
characters. -/
theorem split_index_progress_witness :
    0 < computeSplitIndex (List.replicate 2001 'a') ∧
    1900 < computeSplitIndex (List.replicate 2001 'a') ∧
    computeSplitIndex (List.replicate 2001 'a') ≤ MAX_LENGTH ∧
    (trim ((List.replicate 2001 'a').drop (computeSplitIndex (List.replicate 2001 'a')))).length <
      (List.replicate 2001 'a').length :=
  split_index_progress (List.replicate 2001 'a')
    (by simp only [List.length_replicate, MAX_LENGTH]; omega)

/-! ### Context assembler: bound and chronological order -/

theorem fetchRecent_pairwise (store : List Conversation) (serverId userId : String) :
    (fetchRecent store serverId userId).Pairwise tsDesc := by
  have hp : (List.insertionSort tsDesc (store.filter (historyFilter serverId userId))).Pairwise
      tsDesc := List.sorted_insertionSort tsDesc _
  exact List.Pairwise.sublist (List.take_sublist _ _) hp

/-- C3 (amended): for every store state, scope, identity and prompt, the
assembled context has at most `MAX_CONTEXT_MESSAGES` (= 100, not 80)
entries and the selected records are in chronological order
(non-decreasing timestamp, oldest first). -/
theorem context_bound_and_order (store : List Conversation) (serverId userId : String)
    (currentPrompt : List Char) :
    (getConversationHistory store serverId userId currentPrompt).length ≤ MAX_CONTEXT_MESSAGES ∧
    (getHistoryRecords store serverId userId currentPrompt).Pairwise
      (fun a b => a.timestamp ≤ b.timestamp) := by
  constructor
  · simp only [getConversationHistory, List.length_map, getHistoryRecords]
    exact List.length_take_le _ _
  · have hrec := fetchRecent_pairwise store serverId userId
    have hctx : ((fetchRecent store serverId userId).take MAX_RECENT_MESSAGES).reverse.Pairwise
        (fun a b : Conversation => a.timestamp ≤ b.timestamp) := by
      rw [List.pairwise_reverse]
      exact List.Pairwise.sublist (List.take_sublist _ _) hrec
    have hpool : ((fetchRecent store serverId userId).drop MAX_RECENT_MESSAGES).Pairwise tsDesc :=
      List.Pairwise.sublist (List.drop_sublist _ _) hrec
    have hcross : ∀ a ∈ (fetchRecent store serverId userId).drop MAX_RECENT_MESSAGES,
        ∀ b ∈ (fetchRecent store serverId userId).take MAX_RECENT_MESSAGES,
        a.timestamp ≤ b.timestamp := by
      have happ : (fetchRecent store serverId userId).take MAX_RECENT_MESSAGES ++
          (fetchRecent store serverId userId).drop MAX_RECENT_MESSAGES =
          fetchRecent store serverId userId := List.take_append_drop _ _
      have hp2 : ((fetchRecent store serverId userId).take MAX_RECENT_MESSAGES ++
          (fetchRecent store serverId userId).drop MAX_RECENT_MESSAGES).Pairwise tsDesc := by
        rw [happ]
        exact hrec
      have h3 := (List.pairwise_append.mp hp2).2.2
      intro a ha b hb
      exact h3 b hb a ha
    simp only [getHistoryRecords]
    apply List.Pairwise.sublist (List.take_sublist _ _)
    split
    · split
      · rw [List.pairwise_append]
        refine ⟨?_, hctx, ?_⟩
        · rw [List.pairwise_reverse]
          exact List.Pairwise.sublist (List.take_sublist _ _)
            (List.Pairwise.filter _ hpool)
        · intro a ha b hb
          rw [List.mem_reverse] at ha hb
          have ha2 := List.mem_of_mem_filter (List.mem_of_mem_take ha)
          exact hcross a ha2 b hb
      · exact hctx
    · exact hctx

/-- C3 (counterexample to the claim as stated): a store of 81 records for
one identity, all matching the prompt keyword, yields an assembled
context of 81 entries — more than the claimed bound of 80. -/
theorem context_exceeds_eighty :
    80 < (getConversationHistory cexStore "s1" "u1" (String.toList "abcd")).length := by
  decide

/-! ### Usage ledger: the quota cycle -/

/-- C2: starting from no usage record, five calls inside one 24-hour
window are each allowed with counts 1..5; a sixth call inside the window
is rejected with count 5 and leaves the stored record unchanged; the
first call at or after window expiry is allowed with count 1 and a fresh
window start. -/
theorem image_usage_quota_cycle (t0 t1 t2 t3 t4 t5 t6 : Nat)
    (h1 : t1 - t0 < RESET_INTERVAL) (h2 : t2 - t0 < RESET_INTERVAL)
    (h3 : t3 - t0 < RESET_INTERVAL) (h4 : t4 - t0 < RESET_INTERVAL)
    (h5 : t5 - t0 < RESET_INTERVAL) (h6 : RESET_INTERVAL ≤ t6 - t0) :
    runUsage none [t0, t1, t2, t3, t4] =
      ([⟨true, 1⟩, ⟨true, 2⟩, ⟨true, 3⟩, ⟨true, 4⟩, ⟨true, 5⟩], some ⟨5, t0⟩) ∧
    runUsage none [t0, t1, t2, t3, t4, t5] =
      ([⟨true, 1⟩, ⟨true, 2⟩, ⟨true, 3⟩, ⟨true, 4⟩, ⟨true, 5⟩, ⟨false, 5⟩], some ⟨5, t0⟩) ∧
    runUsage none [t0, t1, t2, t3, t4, t5, t6] =
      ([⟨true, 1⟩, ⟨true, 2⟩, ⟨true, 3⟩, ⟨true, 4⟩, ⟨true, 5⟩, ⟨false, 5⟩, ⟨true, 1⟩],
        some ⟨1, t6⟩) := by
  have h6' : ¬ (t6 - t0 < RESET_INTERVAL) := Nat.not_lt.mpr h6
  refine ⟨?_, ?_, ?_⟩ <;>
    simp [runUsage, checkAndIncrementImageUsage, h1, h2, h3, h4, h5, h6', MAX_USAGE]

/-- Witness for `image_usage_quota_cycle` at concrete call times. -/
theorem image_usage_quota_cycle_witness :
    runUsage none [0, 1, 2, 3, 4, 5, RESET_INTERVAL] =
      ([⟨true, 1⟩, ⟨true, 2⟩, ⟨true, 3⟩, ⟨true, 4⟩, ⟨true, 5⟩, ⟨false, 5⟩, ⟨true, 1⟩],
        some ⟨1, RESET_INTERVAL⟩) :=
  (image_usage_quota_cycle 0 1 2 3 4 5 RESET_INTERVAL (by decide) (by decide) (by decide)
    (by decide) (by decide) (by simp)).2.2

/-! ### Relevance classifier: failure containment and the yes condition -/

/-- C9: `decideToReply` maps a backend exception to `false` (no
exception escapes — the function is total), and it returns `true` only
when the backend produced text whose lower-cased, trimmed form is exactly
`yes`. -/
theorem classifier_decision_spec :
    (∀ e, decideToReply (.error e) = false) ∧
    (∀ res, decideToReply res = true →
      ∃ s, res = .ok (some s) ∧ trim (s.map Char.toLower) = ['y', 'e', 's']) := by
  constructor
  · intro e
    rfl
  · intro res h
    cases res with
    | error e => simp [decideToReply] at h
    | ok txt =>
      cases txt with
      | none => simp [decideToReply] at h
      | some s =>
        refine ⟨s, rfl, ?_⟩
        simpa [decideToReply] using h

/-- Witness for `classifier_decision_spec` at a concrete backend
output. -/
theorem classifier_decision_spec_witness :
    decideToReply (.ok (some (String.toList " Yes "))) = true ∧
    ∃ s, (Except.ok (some (String.toList " Yes ")) : Except Unit (Option (List Char))) =
      .ok (some s) ∧ trim (s.map Char.toLower) = ['y', 'e', 's'] :=
  ⟨by decide, classifier_decision_spec.2 (.ok (some (String.toList " Yes "))) (by decide)⟩

/-! ### Trace lemmas for the messageCreate handler -/

theorem lockStep_id (b : Bool) (e : Ev) (h1 : e ≠ Ev.lockSet) (h2 : e ≠ Ev.lockClear) :
    lockStep b e = b := by
  cases e <;> simp_all [lockStep]

theorem lockAfter_append (b : Bool) (l1 l2 : List Ev) :
    lockAfter b (l1 ++ l2) = lockAfter (lockAfter b l1) l2 := by
  induction l1 generalizing b with
  | nil => rfl
  | cons e tl ih => simp [lockAfter, ih]

theorem lockAfter_id : ∀ (l : List Ev) (b : Bool),
    (∀ e ∈ l, e ≠ Ev.lockSet ∧ e ≠ Ev.lockClear) → lockAfter b l = b := by
  intro l
  induction l with
  | nil => intro b _; rfl
  | cons e tl ih =>
    intro b h
    have he := h e (List.mem_cons_self _ _)
    simp only [lockAfter]
    rw [lockStep_id b e he.1 he.2]
    exact ih b (fun x hx => h x (List.mem_cons_of_mem _ hx))

theorem covered_append (b : Bool) (l1 l2 : List Ev) :
    coveredByLock b (l1 ++ l2) = (coveredByLock b l1 && coveredByLock (lockAfter b l1) l2) := by
  induction l1 generalizing b with
  | nil => simp [coveredByLock, lockAfter]
  | cons e tl ih => simp [coveredByLock, lockAfter, ih, Bool.and_assoc]

theorem covered_of_noncycle : ∀ (l : List Ev) (b : Bool),
    (∀ e ∈ l, isCycleEv e = false) → coveredByLock b l = true := by
  intro l
  induction l with
  | nil => intro b _; rfl
  | cons e tl ih =>
    intro b h
    simp only [coveredByLock]
    rw [h e (List.mem_cons_self _ _)]
    simp [ih (lockStep b e) (fun x hx => h x (List.mem_cons_of_mem _ hx))]

theorem covered_true_of_nolock : ∀ (l : List Ev),
    (∀ e ∈ l, e ≠ Ev.lockSet ∧ e ≠ Ev.lockClear) → coveredByLock true l = true := by
  intro l
  induction l with
  | nil => intro _; rfl
  | cons e tl ih =>
    intro h
    have he := h e (List.mem_cons_self _ _)
    simp only [coveredByLock]
    rw [lockStep_id true e he.1 he.2]
    simp [ih (fun x hx => h x (List.mem_cons_of_mem _ hx))]

theorem countEv_append (e : Ev) (l1 l2 : List Ev) :
    countEv e (l1 ++ l2) = countEv e l1 + countEv e l2 := by
  simp [countEv, List.filter_append]

theorem countEv_of_not_mem (e : Ev) (l : List Ev) (h : e ∉ l) : countEv e l = 0 := by
  simp only [countEv, List.length_eq_zero]
  rw [List.filter_eq_nil_iff]
  intro a ha
  simp only [decide_eq_true_eq]
  intro hae
  exact h (hae ▸ ha)

theorem countEv_replicate_ne (e e2 : Ev) (n : Nat) (h : e2 ≠ e) :
    countEv e (List.replicate n e2) = 0 :=
  countEv_of_not_mem _ _ (fun hm => h ((List.eq_of_mem_replicate hm).symm ▸ rfl))

theorem countEv_cons (e a : Ev) (l : List Ev) :
    countEv e (a :: l) = (if a = e then 1 else 0) + countEv e l := by
  by_cases hae : a = e
  · simp [countEv, List.filter_cons, hae, Nat.add_comm]
  · simp [countEv, List.filter_cons, hae]

theorem mem_decisionTrace (ctx : MsgCtx) :
    ∀ e ∈ decisionTrace ctx, e = Ev.classify ∨ e = Ev.resetIgn := by
  intro e he
  unfold decisionTrace at he
  split at he
  · rcases List.mem_cons.mp he with h1 | h2
    · exact Or.inl h1
    · split at h2
      · rw [List.mem_singleton] at h2
        exact Or.inr h2
      · simp at h2
  · simp at he

theorem decisionTrace_not_lock (ctx : MsgCtx) :
    ∀ e ∈ decisionTrace ctx, e ≠ Ev.lockSet ∧ e ≠ Ev.lockClear := by
  intro e he
  rcases mem_decisionTrace ctx e he with rfl | rfl <;> simp

theorem decisionTrace_noncycle (ctx : MsgCtx) :
    ∀ e ∈ decisionTrace ctx, isCycleEv e = false := by
  intro e he
  rcases mem_decisionTrace ctx e he with rfl | rfl <;> rfl

theorem decisionTrace_mand (ctx : MsgCtx) (h : isMandatoryPingReply ctx = true) :
    decisionTrace ctx = [] := by
  unfold decisionTrace classifierConsulted
  rw [h]
  simp

theorem mem_cycleEvents (ctx : MsgCtx) :
    ∀ e ∈ cycleEvents ctx, isCycleEv e = true := by
  intro e he
  have h2 : e = Ev.upload ∨ e = Ev.callGen ∨ e = Ev.sendChunk ∨ e = Ev.saveMem := by
    simp only [cycleEvents, List.mem_append, List.mem_cons, List.mem_singleton,
      List.mem_replicate, List.not_mem_nil, or_false] at he
    tauto
  rcases h2 with rfl | rfl | rfl | rfl <;> rfl

theorem mem_tryTrace (ctx : MsgCtx) :
    ∀ e ∈ tryTrace ctx, isCycleEv e = true := by
  intro e he
  unfold tryTrace at he
  cases hf : ctx.fault with
  | none =>
    rw [hf] at he
    exact mem_cycleEvents ctx e he
  | some k =>
    rw [hf] at he
    rcases List.mem_append.mp he with h1 | h2
    · exact mem_cycleEvents ctx e (List.mem_of_mem_take h1)
    · split at h2
      · rw [List.mem_singleton] at h2
        subst h2
        rfl
      · simp at h2

theorem cycleEv_not_lock (e : Ev) (h : isCycleEv e = true) :
    e ≠ Ev.lockSet ∧ e ≠ Ev.lockClear := by
  cases e <;> simp_all [isCycleEv]

/-! ### Reply admission: direct addresses -/

/-- C1: in an active scope, a direct address (first mention is the agent,
or a reply to an agent message) is always admitted for reply — whatever
the classifier verdict, the continuous-reply flag and the ignore count
are. (A message swallowed by the sender's own in-flight `/draw` flow
never reaches the admission engine; `admitDecision` is the engine.) -/
theorem direct_address_admitted (ctx : MsgCtx) (hActive : ctx.isBotActive = true)
    (hDirect : isMandatoryPingReply ctx = true) : admitDecision ctx = true := by
  unfold admitDecision
  rw [hDirect]
  simp

/-- Witness for `direct_address_admitted` at a concrete input with a
no-verdict classifier, continuous off and ignore count zero. -/
theorem direct_address_admitted_witness :
    admitDecision
      { authorIsBot := false, inScope := true, isTagged := true, isReplyToBot := false,
        rawPrompt := ['h', 'i'], attachments := 0, hasActiveDraw := false, isBotActive := true,
        isContinuous := false, ignoreCount := 0, classifierYes := false, lockHeld := false,
        responseText := [], splitChance := false, fault := none } = true :=
  direct_address_admitted _ rfl rfl

/-! ### Inactive scope: no reply and no side effects -/

/-- C6: when the scope's activation flag is false, the handler returns
IGNORE with an empty event trace — the ignore counter is neither
incremented nor reset, no memory record is appended, and neither the
classifier nor the generation backend is called. -/
theorem inactive_scope_ignored (ctx : MsgCtx) (h : ctx.isBotActive = false) :
    handleMessage ctx = (Outcome.ignored, []) := by
  unfold handleMessage
  split
  · rfl
  · split
    · rfl
    · rw [h]
      simp

/-- Witness for `inactive_scope_ignored` at a concrete input where every
other input would have produced a reply. -/
theorem inactive_scope_ignored_witness :
    handleMessage
      { authorIsBot := false, inScope := true, isTagged := true, isReplyToBot := false,
        rawPrompt := ['h', 'i'], attachments := 0, hasActiveDraw := false, isBotActive := false,
        isContinuous := true, ignoreCount := 5, classifierYes := true, lockHeld := false,
        responseText := ['o', 'k'], splitChance := false, fault := none } =
      (Outcome.ignored, []) :=
  inactive_scope_ignored _ rfl

theorem handleMessage_replied (ctx : MsgCtx) (hBot : ctx.authorIsBot = false)
    (hScope : ctx.inScope = true) (hDraw : ctx.hasActiveDraw = false)
    (hActive : ctx.isBotActive = true) (hAdmit : admitDecision ctx = true)
    (hLock : ctx.lockHeld = false) :
    handleMessage ctx =
      (Outcome.replied, decisionTrace ctx ++ [Ev.resetIgn, Ev.lockSet] ++ tryTrace ctx ++
        [Ev.lockClear] ++ List.replicate (uploadsDone ctx) Ev.cleanupFile) := by
  unfold handleMessage
  rw [hBot, hScope, hDraw, hActive, hAdmit, hLock]
  simp

theorem handleMessage_busy (ctx : MsgCtx) (hBot : ctx.authorIsBot = false)
    (hScope : ctx.inScope = true) (hDraw : ctx.hasActiveDraw = false)
    (hActive : ctx.isBotActive = true) (hAdmit : admitDecision ctx = true)
    (hLock : ctx.lockHeld = true) :
    handleMessage ctx =
      (Outcome.busy, decisionTrace ctx ++ [Ev.resetIgn] ++
        (if isMandatoryPingReply ctx then [Ev.busyNotice false] else [])) := by
  unfold handleMessage
  rw [hBot, hScope, hDraw, hActive, hAdmit, hLock]
  simp

theorem countBusy_append (l1 l2 : List Ev) :
    countBusyNotices (l1 ++ l2) = countBusyNotices l1 + countBusyNotices l2 := by
  simp [countBusyNotices, List.filter_append]

theorem countBusy_decisionTrace (ctx : MsgCtx) : countBusyNotices (decisionTrace ctx) = 0 := by
  simp only [countBusyNotices, List.length_eq_zero]
  rw [List.filter_eq_nil_iff]
  intro a ha
  rcases mem_decisionTrace ctx a ha with rfl | rfl <;> simp

/-! ### C5: the per-channel concurrency guard -/

/-- C5: for an admitted message, when the channel lock is free the
handler runs exactly one response cycle with the lock set before it and
cleared after it on every path (any fault point included): every cycle
event happens under the lock, the lock is set and cleared exactly once,
and the final lock state is free. When the lock is already held, no
second cycle starts (no cycle event and no lock acquisition appears in
the trace), the lock stays held by the running cycle, a direct-address
trigger gets exactly one non-pinging busy notice and an ambient trigger
gets none. -/
theorem lock_guard_spec (ctx : MsgCtx) (hBot : ctx.authorIsBot = false)
    (hScope : ctx.inScope = true) (hDraw : ctx.hasActiveDraw = false)
    (hActive : ctx.isBotActive = true) (hAdmit : admitDecision ctx = true) :
    (ctx.lockHeld = false →
      (handleMessage ctx).1 = Outcome.replied ∧
      coveredByLock false (handleMessage ctx).2 = true ∧
      lockAfter false (handleMessage ctx).2 = false ∧
      countEv Ev.lockSet (handleMessage ctx).2 = 1 ∧
      countEv Ev.lockClear (handleMessage ctx).2 = 1) ∧
    (ctx.lockHeld = true →
      (handleMessage ctx).1 = Outcome.busy ∧
      lockAfter true (handleMessage ctx).2 = true ∧
      (∀ e ∈ (handleMessage ctx).2, isCycleEv e = false ∧ e ≠ Ev.lockSet) ∧
      countBusyNotices (handleMessage ctx).2 =
        (if isMandatoryPingReply ctx then 1 else 0) ∧
      (∀ p, Ev.busyNotice p ∈ (handleMessage ctx).2 → p = false)) := by
  have hdtP := decisionTrace_not_lock ctx
  have hdtC := decisionTrace_noncycle ctx
  have httP : ∀ e ∈ tryTrace ctx, e ≠ Ev.lockSet ∧ e ≠ Ev.lockClear :=
    fun e he => cycleEv_not_lock e (mem_tryTrace ctx e he)
  constructor
  · intro hLock
    rw [handleMessage_replied ctx hBot hScope hDraw hActive hAdmit hLock]
    have hrepC : ∀ e ∈ List.replicate (uploadsDone ctx) Ev.cleanupFile, isCycleEv e = false := by
      intro e he
      rw [List.eq_of_mem_replicate he]
      rfl
    have hrepP : ∀ e ∈ List.replicate (uploadsDone ctx) Ev.cleanupFile,
        e ≠ Ev.lockSet ∧ e ≠ Ev.lockClear := by
      intro e he
      rw [List.eq_of_mem_replicate he]
      simp
    have c1 : coveredByLock false (decisionTrace ctx) = true :=
      covered_of_noncycle _ false hdtC
    have a1 : lockAfter false (decisionTrace ctx) = false := lockAfter_id _ false hdtP
    have c2 : coveredByLock false (decisionTrace ctx ++ [Ev.resetIgn, Ev.lockSet]) = true := by
      rw [covered_append, c1, a1]
      decide
    have a2 : lockAfter false (decisionTrace ctx ++ [Ev.resetIgn, Ev.lockSet]) = true := by
      rw [lockAfter_append, a1]
      decide
    have c3 : coveredByLock false
        ((decisionTrace ctx ++ [Ev.resetIgn, Ev.lockSet]) ++ tryTrace ctx) = true := by
      rw [covered_append, c2, a2]
      simp [covered_true_of_nolock (tryTrace ctx) httP]
    have a3 : lockAfter false
        ((decisionTrace ctx ++ [Ev.resetIgn, Ev.lockSet]) ++ tryTrace ctx) = true := by
      rw [lockAfter_append, a2, lockAfter_id (tryTrace ctx) true httP]
    have c4 : coveredByLock false
        (((decisionTrace ctx ++ [Ev.resetIgn, Ev.lockSet]) ++ tryTrace ctx) ++
          [Ev.lockClear]) = true := by
      rw [covered_append, c3, a3]
      decide
    have a4 : lockAfter false
        (((decisionTrace ctx ++ [Ev.resetIgn, Ev.lockSet]) ++ tryTrace ctx) ++
          [Ev.lockClear]) = false := by
      rw [lockAfter_append, a3]
      decide
    refine ⟨rfl, ?_, ?_, ?_, ?_⟩
    · show coveredByLock false
        ((((decisionTrace ctx ++ [Ev.resetIgn, Ev.lockSet]) ++ tryTrace ctx) ++
          [Ev.lockClear]) ++ List.replicate (uploadsDone ctx) Ev.cleanupFile) = true
      rw [covered_append, c4, a4]
      simp [covered_of_noncycle _ false hrepC]
    · show lockAfter false
        ((((decisionTrace ctx ++ [Ev.resetIgn, Ev.lockSet]) ++ tryTrace ctx) ++
          [Ev.lockClear]) ++ List.replicate (uploadsDone ctx) Ev.cleanupFile) = false
      rw [lockAfter_append, a4, lockAfter_id _ false hrepP]
    · show countEv Ev.lockSet _ = 1
      rw [countEv_append, countEv_append, countEv_append, countEv_append]
      rw [countEv_of_not_mem _ _ (fun hm => (hdtP _ hm).1 rfl)]
      rw [countEv_of_not_mem _ _ (fun hm => (httP _ hm).1 rfl)]
      rw [countEv_of_not_mem _ _ (fun hm => (hrepP _ hm).1 rfl)]
      decide
    · show countEv Ev.lockClear _ = 1
      rw [countEv_append, countEv_append, countEv_append, countEv_append]
      rw [countEv_of_not_mem _ _ (fun hm => (hdtP _ hm).2 rfl)]
      rw [countEv_of_not_mem _ _ (fun hm => (httP _ hm).2 rfl)]
      rw [countEv_of_not_mem _ _ (fun hm => (hrepP _ hm).2 rfl)]
      decide
  · intro hLock
    rw [handleMessage_busy ctx hBot hScope hDraw hActive hAdmit hLock]
    have hmemB : ∀ e ∈ (decisionTrace ctx ++ [Ev.resetIgn] ++
        (if isMandatoryPingReply ctx then [Ev.busyNotice false] else [])),
        e = Ev.classify ∨ e = Ev.resetIgn ∨ e = Ev.busyNotice false := by
      intro e he
      rcases List.mem_append.mp he with h1 | h2
      · rcases List.mem_append.mp h1 with h3 | h4
        · rcases mem_decisionTrace ctx e h3 with rfl | rfl
          · exact Or.inl rfl
          · exact Or.inr (Or.inl rfl)
        · rw [List.mem_singleton] at h4
          exact Or.inr (Or.inl h4)
      · split at h2
        · rw [List.mem_singleton] at h2
          exact Or.inr (Or.inr h2)
        · simp at h2
    refine ⟨rfl, ?_, ?_, ?_, ?_⟩
    · apply lockAfter_id
      intro e he
      rcases hmemB e he with rfl | rfl | rfl <;> simp
    · intro e he
      rcases hmemB e he with rfl | rfl | rfl <;> simp [isCycleEv]
    · rw [countBusy_append, countBusy_append, countBusy_decisionTrace]
      cases hm : isMandatoryPingReply ctx <;> simp [countBusyNotices]
    · intro p hp
      rcases hmemB _ hp with h1 | h1 | h1
      · simp at h1
      · simp at h1
      · injection h1

/-- Witness input for the concurrency-guard theorem. -/
def ctxLockFree : MsgCtx :=
  { authorIsBot := false, inScope := true, isTagged := false, isReplyToBot := false,
    rawPrompt := ['y', 'o'], attachments := 2, hasActiveDraw := false, isBotActive := true,
    isContinuous := true, ignoreCount := 0, classifierYes := false, lockHeld := false,
    responseText := ['o', 'k'], splitChance := false, fault := some 1 }

/-- Witness for `lock_guard_spec`: a concrete admitted trigger on a free
channel whose cycle faults mid-way still covers its events with the lock
and releases it. -/
theorem lock_guard_spec_witness :
    coveredByLock false (handleMessage ctxLockFree).2 = true ∧
    lockAfter false (handleMessage ctxLockFree).2 = false ∧
    countEv Ev.lockClear (handleMessage ctxLockFree).2 = 1 :=
  ⟨((lock_guard_spec ctxLockFree rfl rfl rfl rfl (by decide)).1 rfl).2.1,
   ((lock_guard_spec ctxLockFree rfl rfl rfl rfl (by decide)).1 rfl).2.2.1,
   ((lock_guard_spec ctxLockFree rfl rfl rfl rfl (by decide)).1 rfl).2.2.2.2⟩

/-! ### C7: empty direct addresses in the current revision -/

/-- C7 (counterexample to the claim as stated): on the concrete empty
direct address `ctxEmptyDirect` (no text after the mention, no
attachment), the handler runs the normal cycle — one generation call and
two memory appends — and the current handler has no canned
prompt-for-input branch at all, contradicting the claimed short-circuit. -/
theorem empty_direct_address_generates :
    handleMessage ctxEmptyDirect =
      (Outcome.replied,
        [Ev.resetIgn, Ev.lockSet, Ev.callGen, Ev.sendChunk, Ev.saveMem, Ev.saveMem,
          Ev.lockClear]) ∧
    countEv Ev.callGen (handleMessage ctxEmptyDirect).2 = 1 ∧
    countEv Ev.saveMem (handleMessage ctxEmptyDirect).2 = 2 := by
  refine ⟨?_, ?_, ?_⟩ <;> decide

/-- C7 (amended): a direct address whose prompt is empty after the
mention is stripped and that has no attachment is handled by the normal
mandatory-reply flow: the generation backend is called once (with the
empty prompt) and both the user and the model memory records are
appended; no canned prompt-for-input short circuit exists. -/
theorem empty_direct_address_normal_flow (ctx : MsgCtx)
    (hBot : ctx.authorIsBot = false) (hScope : ctx.inScope = true)
    (hDraw : ctx.hasActiveDraw = false) (hActive : ctx.isBotActive = true)
    (hDirect : isMandatoryPingReply ctx = true)
    (hEmpty : ctx.rawPrompt = []) (hAtt : ctx.attachments = 0)
    (hLock : ctx.lockHeld = false) (hFault : ctx.fault = none) :
    (handleMessage ctx).1 = Outcome.replied ∧
    countEv Ev.callGen (handleMessage ctx).2 = 1 ∧
    countEv Ev.saveMem (handleMessage ctx).2 = 2 := by
  have hAdmit : admitDecision ctx = true := by
    unfold admitDecision
    rw [hDirect]
    simp
  have hdt := decisionTrace_mand ctx hDirect
  have htt : tryTrace ctx = cycleEvents ctx := by
    simp [tryTrace, hFault]
  have hud : uploadsDone ctx = 0 := by
    simp [uploadsDone, hFault, hAtt]
  have hsend := countEv_replicate_ne Ev.callGen Ev.sendChunk
    ((responseMessages ctx).length - 1) (by simp)
  have hsend2 := countEv_replicate_ne Ev.saveMem Ev.sendChunk
    ((responseMessages ctx).length - 1) (by simp)
  rw [handleMessage_replied ctx hBot hScope hDraw hActive hAdmit hLock]
  refine ⟨rfl, ?_, ?_⟩ <;>
    simp [hdt, htt, hud, cycleEvents, hAtt, countEv_append, countEv_cons, hsend, hsend2,
      countEv]

/-- Witness for `empty_direct_address_normal_flow` at the concrete input
`ctxEmptyDirect`. -/
theorem empty_direct_address_normal_flow_witness :
    (handleMessage ctxEmptyDirect).1 = Outcome.replied ∧
    countEv Ev.callGen (handleMessage ctxEmptyDirect).2 = 1 ∧
    countEv Ev.saveMem (handleMessage ctxEmptyDirect).2 = 2 :=
  empty_direct_address_normal_flow ctxEmptyDirect rfl rfl rfl rfl rfl rfl rfl rfl rfl

/-! ### C8: the /draw cleanup never reaches the file deletion -/

/-- C8 (code behavior): the `finally` block of the guided `/draw` flow
deletes the in-flight map entry first and reads it back afterwards, so
the read always yields nothing: for every flow outcome, map state and
identity, the flow state is cleared but the file-deletion call is never
reached — in particular for the concrete completed flow `exDrawMap`
whose entry holds the uploaded file `files/abc123`. -/
theorem draw_cleanup_never_deletes :
    (∀ (o : DrawOutcome) (m : String → Option DrawState) (uid : String),
      (drawFlowCleanup o m uid).2 = false ∧ (drawFlowCleanup o m uid).1 uid = none) ∧
    (drawFinally exDrawMap "u1").2 = false ∧ (drawFinally exDrawMap "u1").1 "u1" = none := by
  constructor
  · intro o m uid
    unfold drawFlowCleanup drawFinally eraseDraw
    simp
  · constructor <;> decide
